import Mathlib

/-!
Verification of the ComponentDocument model from
`extras/Jucer (experimental)/Source/model/jucer_ComponentDocument.cpp`.

The document tree (JUCE ValueTree), its embedded-metadata persistence, the
dirty-flag lifecycle, the undo-coalesced drag gesture, unique member-name
generation and the component type registry are embedded as executable Lean
definitions, and the specification's claims about them are proved or refuted.

Functions that live in the JUCE library rather than in this repository's
sources (XML serialization, UndoManager internals, string helpers) are
modelled from the specification; each such definition carries a doc comment
saying so.
-/

namespace Jucer

/-! ### Character-list utilities -/

/-- Is `p` a prefix of `l`? (used to model JUCE `String::contains`). -/
def isPrefB : List Char → List Char → Bool
  | [], _ => true
  | _ :: _, [] => false
  | a :: as, b :: bs => a == b && isPrefB as bs

/-- Does `p` occur as a contiguous substring of `l`? -/
def hasSub (p : List Char) : List Char → Bool
  | [] => isPrefB p []
  | b :: bs => isPrefB p (b :: bs) || hasSub p bs

/-- Model of JUCE `String::contains (sub)`. -/
def containsStr (sub s : String) : Bool := hasSub sub.data s.data

/-- Split a character list at the first `'='`, returning the parts before and
after it; `none` when no `'='` occurs. -/
def splitEq : List Char → Option (List Char × List Char)
  | [] => none
  | c :: cs =>
    if c = '=' then some ([], cs)
    else (splitEq cs).map (fun p => (c :: p.1, p.2))

/-- The decimal digit characters. -/
def digitChar : Nat → Char
  | 0 => '0'
  | 1 => '1'
  | 2 => '2'
  | 3 => '3'
  | 4 => '4'
  | 5 => '5'
  | 6 => '6'
  | 7 => '7'
  | 8 => '8'
  | _ => '9'

/-- Fuel-bounded big-endian decimal digits of `n` (fuel `n + 1` always
suffices, see `valChars_ncAux`). -/
def ncAux : Nat → Nat → List Char
  | 0, _ => []
  | f + 1, n => if n < 10 then [digitChar n] else ncAux f (n / 10) ++ [digitChar (n % 10)]

/-- Modelled from the spec: the decimal rendering appended by JUCE
`String::operator<< (int)` when the member-name generator writes its numeric
suffix (library code, not under src/). -/
def natStr (n : Nat) : String := String.mk (ncAux (n + 1) n)

/-- Decimal rendering of an integer, used for component bounds strings. -/
def intStr (i : Int) : String :=
  if i < 0 then String.mk ('-' :: ncAux (i.natAbs + 1) i.natAbs) else natStr i.natAbs

/-- Value of a digit character. -/
def chVal (c : Char) : Nat := c.toNat - 48

/-- Decimal value of a big-endian digit list. -/
def valChars (l : List Char) : Nat := l.foldl (fun a c => a * 10 + chVal c) 0

/-- Is `c` one of `"0123456789"`? (the test used by
`getNonExistentMemberName`'s digit-stripping loop). -/
def isDigitCh (c : Char) : Bool := "0123456789".data.contains c

/-- Integer parser for bounds strings: optional minus sign then digits. -/
def readInt (l : List Char) : Int :=
  match l with
  | '-' :: rest => -(valChars rest : Int)
  | _ => (valChars l : Int)

/-- Split a character list on spaces, dropping empty runs. -/
def splitSp : List Char → List (List Char)
  | [] => []
  | c :: cs =>
    if c = ' ' then splitSp cs
    else
      match splitSp cs with
      | [] => [[c]]
      | w :: ws => if cs.head? = some ' ' then [c] :: w :: ws else (c :: w) :: ws

/-! ### The Node tree (JUCE ValueTree) -/

/-- A document tree node: a type tag, ordered named properties, ordered
children (the shallow embedding of JUCE `ValueTree`; property values are the
strings this document stores). -/
inductive Node where
  | mk (tag : String) (props : List (String × String)) (children : List Node)

def Node.tag : Node → String
  | .mk t _ _ => t

def Node.props : Node → List (String × String)
  | .mk _ ps _ => ps

def Node.children : Node → List Node
  | .mk _ _ cs => cs

theorem Node.eta (n : Node) : Node.mk n.tag n.props n.children = n := by
  cases n
  rfl

/-- Property lookup: first binding of `name`. -/
def propGet (name : String) : List (String × String) → Option String
  | [] => none
  | p :: ps => if p.1 == name then some p.2 else propGet name ps

/-- Property write: replace the first binding of `name` in place, append when
absent (JUCE `ValueTree::setProperty` keeps an existing property's slot). -/
def propSet (name v : String) : List (String × String) → List (String × String)
  | [] => [(name, v)]
  | p :: ps => if p.1 == name then (name, v) :: ps else p :: propSet name v ps

/-- Property removal: drop the first binding of `name`. -/
def propRemove (name : String) : List (String × String) → List (String × String)
  | [] => []
  | p :: ps => if p.1 == name then ps else p :: propRemove name ps

def Node.getProp (n : Node) (name : String) : Option String := propGet name n.props

/-! ### Property and tag names from the source file -/

def componentDocumentTag : String := "COMPONENT"
def componentGroupTag : String := "COMPONENTS"
def idProperty : String := "id"
def compBoundsProperty : String := "position"
def memberNameProperty : String := "memberName"
def compNameProperty : String := "name"

/-- Modelled from the spec: the root's class-name property (its accessor
`getClassName` lives in `jucer_ComponentDocument.h`, which is not under
src/). -/
def classNameProperty : String := "className"

def metadataTagStart : String := "JUCER_COMPONENT_METADATA_START"
def metadataTagEnd : String := "JUCER_COMPONENT_METADATA_END"

/-! ### Child queries and the component group -/

/-- `ValueTree::getChildWithName`: first child whose tag matches. -/
def getChildWithName (tag : String) : List Node → Option Node
  | [] => none
  | c :: cs => if c.tag == tag then some c else getChildWithName tag cs

/-- `ComponentDocument::getComponentGroup`. -/
def getComponentGroup (root : Node) : Option Node :=
  getChildWithName componentGroupTag root.children

/-- `ComponentDocument::getNumComponents`. -/
def getNumComponents (root : Node) : Nat :=
  match getComponentGroup root with
  | none => 0
  | some g => g.children.length

/-- `ComponentDocument::getComponent` (invalid tree when out of range). -/
def getComponentAt (root : Node) (index : Nat) : Option Node :=
  match getComponentGroup root with
  | none => none
  | some g => g.children[index]?

/-- Read property `name` of the component at `index`. -/
def getCompProp (root : Node) (index : Nat) (name : String) : Option String :=
  match getComponentAt root index with
  | none => none
  | some c => c.getProp name

/-- Rewrite the children list of the first `COMPONENTS` child. -/
def replaceGroupChildren (F : List Node → List Node) : List Node → List Node
  | [] => []
  | c :: cs =>
    if c.tag == componentGroupTag then Node.mk c.tag c.props (F c.children) :: cs
    else c :: replaceGroupChildren F cs

/-- Apply `F` to the component group's children, leaving the rest of the root
untouched. -/
def mapGroupChildren (root : Node) (F : List Node → List Node) : Node :=
  Node.mk root.tag root.props (replaceGroupChildren F root.children)

/-- In-place update of the element at `i` (no-op out of range). -/
def modifyAt (i : Nat) (f : Node → Node) : List Node → List Node
  | [] => []
  | c :: cs =>
    match i with
    | 0 => f c :: cs
    | j + 1 => c :: modifyAt j f cs

/-- Insert at position `i`, clamped to the end. -/
def insertAt (i : Nat) (x : Node) : List Node → List Node
  | cs =>
    match i, cs with
    | 0, cs => x :: cs
    | _ + 1, [] => [x]
    | j + 1, c :: cs => c :: insertAt j x cs

/-- Remove the element at position `i` (no-op out of range). -/
def removeAt (i : Nat) : List Node → List Node
  | [] => []
  | c :: cs =>
    match i with
    | 0 => cs
    | j + 1 => c :: removeAt j cs

/-! ### Rectangles, points, bounds strings -/

structure Rect where
  x : Int
  y : Int
  w : Int
  h : Int
deriving DecidableEq

structure Point where
  x : Int
  y : Int
deriving DecidableEq

/-- Modelled from the spec: `Rectangle<int>::toString` (JUCE library code not
under src/) renders the bounds as `"x y w h"`; `componentBoundsToString`
wraps it in the source. -/
def componentBoundsToString (r : Rect) : String :=
  intStr r.x ++ " " ++ intStr r.y ++ " " ++ intStr r.w ++ " " ++ intStr r.h

/-- Modelled from the spec: `Rectangle<int>::fromString` (JUCE library code
not under src/) reads four space-separated integers; `stringToComponentBounds`
wraps it in the source. -/
def stringToComponentBounds (s : String) : Rect :=
  match splitSp s.data with
  | [a, b, c, d] => ⟨readInt a, readInt b, readInt c, readInt d⟩
  | _ => ⟨0, 0, 0, 0⟩

/-! ### The serialized metadata block

`ComponentDocument::writeMetadata` frames `root.createXml()` between the two
sentinel lines; `ComponentDocument::reload` scans for the start sentinel,
collects the lines up to the end sentinel and parses them back.  A file is
embedded as the list of its lines. -/

/-- Line opening a serialized node. -/
def openLine (tag : String) : String := String.mk ('<' :: tag.data)

/-- Line carrying one property (attribute). -/
def propLine (p : String × String) : String :=
  String.mk ('@' :: (p.1.data ++ '=' :: p.2.data))

/-- Line closing a serialized node. -/
def closeLine : String := ">"

mutual
/-- Modelled from the spec: the XML-like serialization produced by
`root.createXml()` / `XmlElement::writeToStream` (JUCE library code not under
src/): one element per node, named after the node's type tag, with the
properties as attributes and the children nested.  Rendered here
line-structured: an opening line, one attribute line per property, the
serialized children, a closing line. -/
def serN : Node → List String
  | .mk t ps cs => openLine t :: ps.map propLine ++ serC cs ++ [closeLine]
/-- Serialization of a sibling run, concatenated in order. -/
def serC : List Node → List String
  | [] => []
  | c :: cs => serN c ++ serC cs
end

/-- Does the line open a node? -/
def isOpenLine (l : String) : Bool :=
  match l.data with
  | '<' :: _ => true
  | _ => false

/-- Does the line carry a property? -/
def isAtLine (l : String) : Bool :=
  match l.data with
  | '@' :: _ => true
  | _ => false

/-- Parse the leading run of property lines. -/
def parseProps : List String → Option (List (String × String) × List String)
  | [] => some ([], [])
  | l :: rest =>
    if isAtLine l then
      match splitEq (l.data.drop 1) with
      | none => none
      | some (n, v) =>
        match parseProps rest with
        | none => none
        | some (ps, r2) => some ((String.mk n, String.mk v) :: ps, r2)
    else some ([], l :: rest)

mutual
/-- Modelled from the spec: the parser half of the Persistence Codec
(`XmlDocument` / `ValueTree::fromXml`, JUCE library code not under src/),
over the line-structured rendering: `parseNode` reads one serialized node,
`parseChildren` a maximal run of serialized siblings. -/
def parseNode : Nat → List String → Option (Node × List String)
  | 0, _ => none
  | _ + 1, [] => none
  | f + 1, l :: rest =>
    if isOpenLine l then
      match parseProps rest with
      | none => none
      | some (ps, r2) =>
        match parseChildren f r2 with
        | none => none
        | some (cs, r3) =>
          match r3 with
          | [] => none
          | c :: r4 =>
            if c == closeLine then some (Node.mk (String.mk (l.data.drop 1)) ps cs, r4)
            else none
    else none
/-- Parse a maximal run of serialized siblings. -/
def parseChildren : Nat → List String → Option (List Node × List String)
  | 0, _ => none
  | _ + 1, [] => some ([], [])
  | f + 1, l :: rest =>
    if isOpenLine l then
      match parseNode f (l :: rest) with
      | none => none
      | some (n, r2) =>
        match parseChildren f r2 with
        | none => none
        | some (ns, r3) => some (n :: ns, r3)
    else some ([], l :: rest)
end

/-- Parse a whole metadata body: blank lines are insignificant (XML
whitespace), the document element is the first parsed node. -/
def parseDocumentXml (ls : List String) : Option Node :=
  let cleaned := ls.filter (fun l => !(l == ""))
  match parseNode (cleaned.length + 1) cleaned with
  | none => none
  | some (n, _) => some n

/-- The lines `ComponentDocument::writeMetadata` appends to the stream. -/
def metadataLines (root : Node) : List String :=
  ["#if 0",
   "/** Jucer-generated metadata section - Edit this data at own risk!",
   metadataTagStart,
   ""] ++ serN root ++ [metadataTagEnd ++ " */", "#endif"]

/-- The lines `ComponentDocument::writeCode` emits for the cpp stream (the
header stream gets the same two lines). -/
def writeCodeLines : List String := ["/**  */", ""]

/-- The full cpp file content produced by `ComponentDocument::save`. -/
def saveLines (root : Node) : List String := writeCodeLines ++ metadataLines root

/-- `reload`'s outer scan: drop lines until one contains the start sentinel,
returning the lines after it. -/
def findStart : List String → Option (List String)
  | [] => none
  | l :: ls => if containsStr metadataTagStart l then some ls else findStart ls

/-- `reload`'s inner scan: collect lines until one contains the end
sentinel. -/
def takeBody : List String → List String
  | [] => []
  | l :: ls => if containsStr metadataTagEnd l then [] else l :: takeBody ls

/-- The metadata region `reload` extracts from the file's lines (empty when
the start sentinel is absent, which makes the parse fail). -/
def extractMetadata (ls : List String) : List String :=
  match findStart ls with
  | none => []
  | some rest => takeBody rest

/-- The pure core of `ComponentDocument::reload`: `none` when the file does
not exist, when the metadata region does not parse, or when the top-level tag
is not `COMPONENT`; otherwise the parsed tree. -/
def reloadPure (file : Option (List String)) : Option Node :=
  match file with
  | none => none
  | some ls =>
    match parseDocumentXml (extractMetadata ls) with
    | none => none
    | some n => if n.tag == componentDocumentTag then some n else none

/-! ### Undoable actions and the undo manager

JUCE's `UndoManager` is library code, not under src/; its transaction
behaviour is modelled from the spec (§4.3): actions are grouped into the
currently open transaction, `beginNewTransaction` closes the open transaction
(discarding it when empty, so it never appears in history), `undo` reverts
the most recent closed transaction, `undoCurrentTransactionOnly` reverts and
clears the open transaction without closing it, `clearUndoHistory` forgets
everything. -/

/-- One reversible edit recorded against the component group: a property
write (with the value it replaced) or a child insertion/removal. -/
inductive Action where
  | setp (idx : Nat) (name : String) (oldVal : Option String) (newVal : Option String)
  | insertComp (idx : Nat) (child : Node)
  | removeComp (idx : Nat) (child : Node)

def Action.invert : Action → Action
  | .setp i n o v => .setp i n v o
  | .insertComp i c => .removeComp i c
  | .removeComp i c => .insertComp i c

/-- Write (or remove, for `none`) a property of one node. -/
def setPropO (name : String) (v : Option String) (c : Node) : Node :=
  match v with
  | some w => Node.mk c.tag (propSet name w c.props) c.children
  | none => Node.mk c.tag (propRemove name c.props) c.children

/-- Apply an action to the document root (all actions target the component
group's children). -/
def applyAction (r : Node) : Action → Node
  | .setp i n _ v => mapGroupChildren r (modifyAt i (setPropO n v))
  | .insertComp i c => mapGroupChildren r (insertAt i c)
  | .removeComp i _ => mapGroupChildren r (removeAt i)

/-- Undo a most-recent-first action list: apply the inverses in order. -/
def applyInverses (r : Node) (acts : List Action) : Node :=
  acts.foldl (fun t a => applyAction t a.invert) r

/-- The recorded action for writing property `name := v` on component `idx`
of root `r` (captures the value being replaced, as JUCE's
`SetPropertyAction` does). -/
def recordSet (r : Node) (idx : Nat) (name v : String) : Action :=
  .setp idx name (getCompProp r idx name) (some v)

structure UndoManager where
  history : List (List Action)
  current : List Action

/-- `UndoManager::beginNewTransaction`: close the open transaction; an empty
one is discarded and never appears in history. -/
def UndoManager.beginNewTransaction (u : UndoManager) : UndoManager :=
  if u.current.isEmpty then u else ⟨u.current :: u.history, []⟩

/-! ### The component type registry -/

structure ComponentTypeHandler where
  name : String
  xmlTag : String
  memberNameRoot : String
deriving DecidableEq

/-- A live component: bounds, a display name, and the opaque per-instance
property store used to stash the identity tag. -/
structure Component where
  bounds : Rect
  compName : String
  props : List (String × String)
deriving DecidableEq

/-- Modelled from the spec: the two built-in handlers registered by the
`ComponentTypeManager` constructor (`jucer_TextButton.h` and
`jucer_ToggleButton.h` are not under src/); the tags follow the spec's file
format example. -/
def handlers : List ComponentTypeHandler :=
  [⟨"Text Button", "TEXTBUTTON", "textButton"⟩,
   ⟨"Toggle Button", "TOGGLEBUTTON", "toggleButton"⟩]

/-- `ComponentTypeManager::getHandlerFor`: scans the handler table backwards
for a matching tag. -/
def getHandlerFor (t : String) : Option ComponentTypeHandler :=
  handlers.reverse.find? (fun h => h.xmlTag == t)

/-- `ComponentTypeHandler::updateComponent`: copy the node's bounds and name
onto the live component. -/
def updateComponent (c : Component) (state : Node) : Component :=
  { c with
    bounds := stringToComponentBounds ((state.getProp compBoundsProperty).getD ""),
    compName := (state.getProp compNameProperty).getD "" }

/-- `ComponentTypeManager::createFromStoredType`: `none` when no handler
matches the node's tag, otherwise a fresh component with the node's
properties applied. -/
def createFromStoredType (v : Node) : Option Component :=
  match getHandlerFor v.tag with
  | none => none
  | some _ => some (updateComponent ⟨⟨0, 0, 0, 0⟩, "", []⟩ v)

/-- Result of `ComponentDocument::createComponent`: the source dereferences
the pointer returned by `createFromStoredType` without a null check
(`c->getProperties().set (idProperty, v[idProperty])`), so an unknown type
tag reaches a null-pointer dereference, embedded as `.crash`. -/
inductive CreateResult where
  | crash
  | nullResult
  | made (c : Component)
deriving DecidableEq

/-- `ComponentDocument::createComponent (index)`. -/
def createComponent (root : Node) (index : Nat) : CreateResult :=
  match getComponentAt root index with
  | none => .nullResult
  | some v =>
    match createFromStoredType v with
    | none => .crash
    | some c => .made { c with props := propSet idProperty ((v.getProp idProperty).getD "") c.props }

/-! ### Unique member names -/

/-- Modelled from the spec: `makeValidCppIdentifier (suggested, false, true,
false)` (a jucer utility not under src/) "normalizes `suggested` into a valid
identifier"; modelled as keeping identifier characters and substituting a
default when nothing remains. -/
def makeValidCppIdentifier (s : String) : String :=
  let kept := s.data.filter (fun c => c.isAlphanum || c == '_')
  if kept.isEmpty then "unnamed" else String.mk kept

/-- The digit-stripping loop of `getNonExistentMemberName`: while the last
character is one of `"0123456789"`, drop it. -/
def stripTrailingDigits (s : String) : String :=
  String.mk (s.data.reverse.dropWhile isDigitCh).reverse

/-- `ComponentDocument::getComponentWithMemberName`: scans the component
group's children from the back for a matching `memberName` property. -/
def findMemberRev (name : String) : List Node → Option Node
  | [] => none
  | c :: cs =>
    match findMemberRev name cs with
    | some r => some r
    | none => if c.getProp memberNameProperty == some name then some c else none

def getComponentWithMemberName (root : Node) (name : String) : Option Node :=
  match getComponentGroup root with
  | none => none
  | some g => findMemberRev name g.children

/-- Candidate `i` tried by the collision loop: the normalized suggestion for
`i = 0`, then the digit-stripped base with decimal suffix `i`. -/
def gnemCand (orig : String) (i : Nat) : String :=
  match i with
  | 0 => orig
  | _ + 1 => stripTrailingDigits orig ++ natStr i

/-- The collision loop of `getNonExistentMemberName`, fuel-bounded, returning
the name found and the number of collisions encountered (loop-body
executions). -/
def gnemLoop (r : Node) (orig : String) : Nat → Nat → String → String × Nat
  | 0, _, cur => (cur, 0)
  | f + 1, i, cur =>
    if (getComponentWithMemberName r cur).isSome then
      ((gnemLoop r orig f (i + 1) (stripTrailingDigits orig ++ natStr (i + 1))).1,
       (gnemLoop r orig f (i + 1) (stripTrailingDigits orig ++ natStr (i + 1))).2 + 1)
    else (cur, 0)

/-- `ComponentDocument::getNonExistentMemberName` (the fuel
`getNumComponents + 2` provably suffices, see the termination theorem). -/
def getNonExistentMemberName (root : Node) (suggested : String) : String :=
  let orig := makeValidCppIdentifier suggested
  (gnemLoop root orig (getNumComponents root + 2) 0 orig).1

/-- The number of collision-loop iterations `getNonExistentMemberName`
performs. -/
def gnemIterations (root : Node) (suggested : String) : Nat :=
  let orig := makeValidCppIdentifier suggested
  (gnemLoop root orig (getNumComponents root + 2) 0 orig).2

/-! ### The document -/

/-- The live capture held by `ComponentDocument::DragHandler`: for each
dragged component its index in the component group (standing for the
captured `ValueTree` reference) and its pre-drag bounds, plus the resize
zone's geometry function (`ResizableBorderComponent::Zone::resizeRectangleBy`
is JUCE library code, kept abstract as modelled from the spec: "a
deterministic function of the resize zone and the cumulative pointer
offset"). -/
structure DragState where
  entries : List (Nat × Rect)
  zone : Rect → Point → Rect

structure ComponentDocument where
  root : Node
  undoManager : UndoManager
  changedSinceSaved : Bool
  dragger : Option DragState

namespace ComponentDocument

/-- `ComponentDocument::checkRootObject`: add the component group when
absent, give the class name a default when empty. -/
def checkRootObject (root : Node) : Node :=
  let r1 :=
    if (getComponentGroup root).isSome then root
    else Node.mk root.tag root.props (root.children ++ [Node.mk componentGroupTag [] []])
  if ((r1.getProp classNameProperty).getD "" == "") then
    Node.mk r1.tag (propSet classNameProperty "NewComponent" r1.props) r1.children
  else r1

/-- `ComponentDocument::reload`: the file is `none` when
`cppFile.createInputStream()` fails.  On success the root is replaced by the
parsed (and then repaired) tree, the undo history is cleared and the dirty
flag reset; on failure the document is untouched. -/
def reload (d : ComponentDocument) (file : Option (List String)) :
    Bool × ComponentDocument :=
  match reloadPure file with
  | some t => (true, ⟨checkRootObject t, ⟨[], []⟩, false, d.dragger⟩)
  | none => (false, d)

/-- `ComponentDocument::save`: `w1` and `w2` are the outcomes of the two
`overwriteFileWithNewDataIfDifferent` calls (cpp file, then header); the
dirty flag is cleared exactly when both succeed. -/
def save (d : ComponentDocument) (w1 w2 : Bool) : Bool × ComponentDocument :=
  let savedOk := w1 && w2
  (savedOk, if savedOk then { d with changedSinceSaved := false } else d)

/-- `ComponentDocument::hasChangedSinceLastSave`. -/
def hasChangedSinceLastSave (d : ComponentDocument) : Bool := d.changedSinceSaved

/-- The constructor: start from an empty `COMPONENT` root with a clean flag,
`reload()`, then `checkRootObject()`; the change listener is attached only
after this, so construction never leaves the flag set. -/
def construct (file : Option (List String)) : ComponentDocument :=
  let d0 : ComponentDocument := ⟨Node.mk componentDocumentTag [] [], ⟨[], []⟩, false, none⟩
  let d1 := (d0.reload file).2
  { d1 with root := checkRootObject d1.root }

/-- `ComponentDocument::beginNewTransaction`. -/
def beginNewTransaction (d : ComponentDocument) : ComponentDocument :=
  { d with undoManager := d.undoManager.beginNewTransaction }

/-- Modelled from the spec: `UndoManager::undo` reverts the most recent
closed transaction; a no-op at the history boundary. -/
def undo (d : ComponentDocument) : ComponentDocument :=
  match d.undoManager.history with
  | [] => d
  | t :: rest =>
    { d with root := applyInverses d.root t,
             undoManager := ⟨rest, d.undoManager.current⟩,
             changedSinceSaved := true }

/-- Modelled from the spec: `UndoManager::undoCurrentTransactionOnly` reverts
the actions of the currently open transaction without closing it. -/
def undoCurrentTransactionOnly (d : ComponentDocument) : ComponentDocument :=
  { d with root := applyInverses d.root d.undoManager.current,
           undoManager := ⟨d.undoManager.history, []⟩,
           changedSinceSaved :=
             if d.undoManager.current.isEmpty then d.changedSinceSaved else true }

/-- Write `name := v` on component `idx` through the undo manager: the tree
changes, the action is recorded in the open transaction, and the change
event sets the dirty flag. -/
def performSet (d : ComponentDocument) (idx : Nat) (name v : String) :
    ComponentDocument :=
  let a := recordSet d.root idx name v
  { d with root := applyAction d.root a,
           undoManager := ⟨d.undoManager.history, a :: d.undoManager.current⟩,
           changedSinceSaved := true }

/-- The property writes of one `DragHandler::drag` pass, on the plain
tree/action state. -/
def runWrites : Node × List Action → List (Nat × String) → Node × List Action
  | p, [] => p
  | (r, acts), (i, v) :: ws =>
    runWrites (applyAction r (recordSet r i compBoundsProperty v),
               recordSet r i compBoundsProperty v :: acts) ws

/-- `DragHandler::drag`: revert the open transaction's preview writes, then
write each captured component's new bounds from its pre-drag rectangle. -/
def dragOnce (d : ComponentDocument) (ds : DragState) (off : Point) :
    ComponentDocument :=
  let d1 := d.undoCurrentTransactionOnly
  let ws := ds.entries.map (fun e => (e.1, componentBoundsToString (ds.zone e.2 off)))
  let res := runWrites (d1.root, d1.undoManager.current) ws
  { d1 with root := res.1,
            undoManager := ⟨d1.undoManager.history, res.2⟩,
            changedSinceSaved := if ws.isEmpty then d1.changedSinceSaved else true }

/-- `ComponentDocument::beginDrag`: capture each dragged component's state
and pre-drag bounds, then open a transaction. -/
def beginDrag (d : ComponentDocument) (idxs : List Nat) (zone : Rect → Point → Rect) :
    ComponentDocument :=
  let entries := idxs.map (fun i =>
    (i, stringToComponentBounds ((getCompProp d.root i compBoundsProperty).getD "")))
  let d1 := d.beginNewTransaction
  { d1 with dragger := some ⟨entries, zone⟩ }

/-- `ComponentDocument::continueDrag`: a no-op when no drag is in
progress. -/
def continueDrag (d : ComponentDocument) (off : Point) : ComponentDocument :=
  match d.dragger with
  | none => d
  | some ds => d.dragOnce ds off

/-- `ComponentDocument::endDrag`: one final drag pass, then the handler is
destroyed, whose destructor closes the transaction. -/
def endDrag (d : ComponentDocument) (off : Point) : ComponentDocument :=
  match d.dragger with
  | none => d
  | some ds =>
    let d1 := d.dragOnce ds off
    let d2 := d1.beginNewTransaction
    { d2 with dragger := none }

/-- `ComponentTypeHandler::createNewItem`: a fresh node with the handler's
tag, the given unique id (`createAlphaNumericUID` is random, so the id is a
parameter), an empty name, a generated member name and the given bounds. -/
def createNewItem (h : ComponentTypeHandler) (uid memberName : String) (pos : Rect) :
    Node :=
  Node.mk h.xmlTag
    [(idProperty, uid), (compNameProperty, ""), (memberNameProperty, memberName),
     (compBoundsProperty, componentBoundsToString pos)] []

/-- `ComponentDocument::performNewComponentMenuItem`: append the handler's
new item to the component group through the undo manager. -/
def addNewComponent (d : ComponentDocument) (h : ComponentTypeHandler)
    (uid : String) (pos : Rect) : ComponentDocument :=
  let item := createNewItem h uid (getNonExistentMemberName d.root h.memberNameRoot) pos
  let a : Action := .insertComp (getNumComponents d.root) item
  { d with root := applyAction d.root a,
           undoManager := ⟨d.undoManager.history, a :: d.undoManager.current⟩,
           changedSinceSaved := true }

end ComponentDocument

/-! ### Document operations and change events -/

/-- The outward document operations (§6 of the spec), as data so invariants
can be stated over arbitrary operation sequences. -/
inductive DocOp where
  | saveOp (w1 w2 : Bool)
  | reloadOp (file : Option (List String))
  | newTransactionOp
  | undoOp
  | setPropertyOp (idx : Nat) (name v : String)
  | addComponentOp (h : ComponentTypeHandler) (uid : String) (pos : Rect)
  | beginDragOp (idxs : List Nat) (zone : Rect → Point → Rect)
  | continueDragOp (off : Point)
  | endDragOp (off : Point)

def ComponentDocument.applyOp (d : ComponentDocument) : DocOp → ComponentDocument
  | .saveOp w1 w2 => (d.save w1 w2).2
  | .reloadOp file => (d.reload file).2
  | .newTransactionOp => d.beginNewTransaction
  | .undoOp => d.undo
  | .setPropertyOp i n v => d.performSet i n v
  | .addComponentOp h uid pos => d.addNewComponent h uid pos
  | .beginDragOp idxs zone => d.beginDrag idxs zone
  | .continueDragOp off => d.continueDrag off
  | .endDragOp off => d.endDrag off

/-- The events the document observes, at the granularity of its
`ValueTree::Listener` callbacks plus its own save/reload calls. -/
inductive DocEvent where
  | propertyChanged
  | childrenChanged
  | parentChanged
  | saveEvent (w1 w2 : Bool)
  | reloadEvent (file : Option (List String))

/-- How one event updates the document: the three listener callbacks each set
the dirty flag (`valueTreePropertyChanged`, `valueTreeChildrenChanged`,
`valueTreeParentChanged` all assign `changedSinceSaved = true`). -/
def ComponentDocument.stepEvent (d : ComponentDocument) : DocEvent → ComponentDocument
  | .propertyChanged => { d with changedSinceSaved := true }
  | .childrenChanged => { d with changedSinceSaved := true }
  | .parentChanged => { d with changedSinceSaved := true }
  | .saveEvent w1 w2 => (d.save w1 w2).2
  | .reloadEvent file => (d.reload file).2

/-- One step of the dirty flag the spec's lifecycle prescribes: set by any
change event, cleared by a successful save or reload. -/
def dirtyStep (b : Bool) (e : DocEvent) : Bool :=
  match e with
  | .propertyChanged => true
  | .childrenChanged => true
  | .parentChanged => true
  | .saveEvent w1 w2 => if w1 && w2 then false else b
  | .reloadEvent file => if (reloadPure file).isSome then false else b

/-- The dirty flag the spec's lifecycle prescribes after a sequence of
events, starting clean. -/
def dirtySpec (evs : List DocEvent) : Bool := evs.foldl dirtyStep false

/-! ### Facts about the decimal rendering -/

theorem chVal_digitChar (n : Nat) (h : n < 10) : chVal (digitChar n) = n := by
  interval_cases n <;> decide

theorem valChars_append_single (l : List Char) (c : Char) :
    valChars (l ++ [c]) = valChars l * 10 + chVal c := by
  simp [valChars, List.foldl_append]

theorem valChars_ncAux : ∀ f n, n < f → valChars (ncAux f n) = n := by
  intro f
  induction f with
  | zero => intro n h; omega
  | succ f ih =>
    intro n h
    rw [ncAux]
    by_cases h10 : n < 10
    · rw [if_pos h10]
      simpa [valChars] using chVal_digitChar n h10
    · rw [if_neg h10]
      have hdiv : n / 10 < n := Nat.div_lt_self (by omega) (by omega)
      have hrec := ih (n / 10) (by omega)
      rw [valChars_append_single, hrec, chVal_digitChar (n % 10) (Nat.mod_lt n (by omega))]
      have := Nat.div_add_mod n 10
      omega

theorem natStr_inj (a b : Nat) (h : natStr a = natStr b) : a = b := by
  have hd : ncAux (a + 1) a = ncAux (b + 1) b := congrArg String.data h
  have ha := valChars_ncAux (a + 1) a (by omega)
  have hb := valChars_ncAux (b + 1) b (by omega)
  rw [← ha, ← hb, hd]

/-! ### Sizes and a mutual induction principle for the nested tree type -/

mutual
def nsizeN : Node → Nat
  | .mk _ _ cs => 2 + nsizeL cs
def nsizeL : List Node → Nat
  | [] => 0
  | c :: cs => nsizeN c + nsizeL cs
end

theorem nsizeN_ge (n : Node) : 2 ≤ nsizeN n := by
  cases n with
  | mk t ps cs => rw [nsizeN]; omega

theorem node_rec_aux (P : Node → Prop) (Q : List Node → Prop)
    (hN : ∀ t ps cs, Q cs → P (.mk t ps cs))
    (hnil : Q [])
    (hcons : ∀ c cs, P c → Q cs → Q (c :: cs)) :
    ∀ k, (∀ n, nsizeN n ≤ k → P n) ∧ (∀ cs, nsizeL cs ≤ k → Q cs) := by
  intro k
  induction k with
  | zero =>
    constructor
    · intro n h
      have := nsizeN_ge n
      omega
    · intro cs h
      cases cs with
      | nil => exact hnil
      | cons c cs2 =>
        rw [nsizeL] at h
        have := nsizeN_ge c
        omega
  | succ k ih =>
    have hNk : ∀ n, nsizeN n ≤ k + 1 → P n := by
      intro n h
      cases n with
      | mk t ps cs =>
        rw [nsizeN] at h
        exact hN t ps cs (ih.2 cs (by omega))
    refine ⟨hNk, ?_⟩
    intro cs h
    cases cs with
    | nil => exact hnil
    | cons c cs2 =>
      rw [nsizeL] at h
      have h2 := nsizeN_ge c
      exact hcons c cs2 (hNk c (by omega)) (ih.2 cs2 (by omega))

/-- Mutual structural induction over nodes and sibling lists. -/
theorem node_ind (P : Node → Prop) (Q : List Node → Prop)
    (hN : ∀ t ps cs, Q cs → P (.mk t ps cs))
    (hnil : Q [])
    (hcons : ∀ c cs, P c → Q cs → Q (c :: cs)) :
    (∀ n, P n) ∧ (∀ cs, Q cs) :=
  ⟨fun n => (node_rec_aux P Q hN hnil hcons (nsizeN n)).1 n le_rfl,
   fun cs => (node_rec_aux P Q hN hnil hcons (nsizeL cs)).2 cs le_rfl⟩

/-! ### Round-trip of the serialized metadata -/

mutual
/-- Wellformedness for exact round-trip: every property name is free of
`'='` (the analogue of XML attribute names being identifiers). -/
def okN : Node → Bool
  | .mk _ ps cs => ps.all (fun p => p.1.data.all (fun c => !(c == '='))) && okL cs
/-- `okN` over a sibling list. -/
def okL : List Node → Bool
  | [] => true
  | c :: cs => okN c && okL cs
end

/-- No serialized line of the tree contains the end sentinel (a line that did
would truncate `reload`'s scan). -/
def endFree (n : Node) : Bool :=
  (serN n).all (fun l => !(containsStr metadataTagEnd l))

theorem isOpenLine_openLine (t : String) : isOpenLine (openLine t) = true := rfl

theorem isAtLine_openLine (t : String) : isAtLine (openLine t) = false := rfl

theorem isAtLine_propLine (p : String × String) : isAtLine (propLine p) = true := rfl

theorem isOpenLine_closeLine : isOpenLine closeLine = false := rfl

theorem isAtLine_closeLine : isAtLine closeLine = false := rfl

theorem parseProps_stop (l : String) (rest : List String) (h : isAtLine l = false) :
    parseProps (l :: rest) = some ([], l :: rest) := by
  simp [parseProps, h]

theorem parseChildren_stop (f : Nat) (l : String) (rest : List String)
    (h : isOpenLine l = false) :
    parseChildren (f + 1) (l :: rest) = some ([], l :: rest) := by
  simp [parseChildren, h]

theorem splitEq_append (n v : List Char) (h : n.all (fun c => !(c == '=')) = true) :
    splitEq (n ++ '=' :: v) = some (n, v) := by
  induction n with
  | nil => simp [splitEq]
  | cons c cs ih =>
    simp only [List.all_cons, Bool.and_eq_true] at h
    have hc : ¬(c = '=') := by
      intro hc
      rw [hc] at h
      simp at h
    simp only [List.cons_append, splitEq, if_neg hc, List.append_eq, ih h.2]
    rfl

/-- Whether the leading line (if any) is not a property line. -/
def headNotAt : List String → Bool
  | [] => true
  | l :: _ => !(isAtLine l)

theorem parseProps_run :
    ∀ ps : List (String × String), ∀ r : List String,
      ps.all (fun p => p.1.data.all (fun c => !(c == '='))) = true →
      headNotAt r = true →
      parseProps (ps.map propLine ++ r) = some (ps, r) := by
  intro ps
  induction ps with
  | nil =>
    intro r hok hr
    cases r with
    | nil => simp [parseProps]
    | cons l rest =>
      have hl : isAtLine l = false := by
        simp [headNotAt] at hr
        exact hr
      simpa using parseProps_stop l rest hl
  | cons p ps ih =>
    intro r hok hr
    simp only [List.all_cons, Bool.and_eq_true] at hok
    simp only [List.map_cons, List.cons_append]
    rw [parseProps]
    rw [if_pos (isAtLine_propLine p)]
    have hdrop : (propLine p).data.drop 1 = p.1.data ++ '=' :: p.2.data := rfl
    rw [hdrop, splitEq_append p.1.data p.2.data hok.1, ih r hok.2 hr]

theorem headNotAt_serC (cs : List Node) (l : String) (rest : List String)
    (h : isAtLine l = false) :
    headNotAt (serC cs ++ l :: rest) = true := by
  cases cs with
  | nil =>
    rw [serC]
    simp [headNotAt, h]
  | cons c cs2 =>
    cases c with
    | mk t ps cc =>
      rw [serC, serN]
      simp [headNotAt, isAtLine_openLine]

theorem parseNode_eq (f : Nat) (l : String) (rest : List String) :
    parseNode (f + 1) (l :: rest) =
      (if isOpenLine l then
        match parseProps rest with
        | none => none
        | some (ps, r2) =>
          match parseChildren f r2 with
          | none => none
          | some (cs, r3) =>
            match r3 with
            | [] => none
            | c :: r4 =>
              if c == closeLine then some (Node.mk (String.mk (l.data.drop 1)) ps cs, r4)
              else none
      else none) := rfl

theorem parseChildren_eq (f : Nat) (l : String) (rest : List String) :
    parseChildren (f + 1) (l :: rest) =
      (if isOpenLine l then
        match parseNode f (l :: rest) with
        | none => none
        | some (n, r2) =>
          match parseChildren f r2 with
          | none => none
          | some (ns, r3) => some (n :: ns, r3)
      else some ([], l :: rest)) := rfl

theorem parse_ser :
    (∀ n : Node, okN n = true → ∀ f rest,
        parseNode (nsizeN n + f) (serN n ++ rest) = some (n, rest)) ∧
    (∀ cs : List Node, okL cs = true → ∀ f l rest, isOpenLine l = false →
        parseChildren (nsizeL cs + 1 + f) (serC cs ++ l :: rest) = some (cs, l :: rest)) := by
  apply node_ind
  · intro t ps cs hQ hok f rest
    rw [okN, Bool.and_eq_true] at hok
    have hshape : serN (Node.mk t ps cs) ++ rest
        = openLine t :: (ps.map propLine ++ (serC cs ++ closeLine :: rest)) := by
      rw [serN]
      simp
    have hsize : nsizeN (Node.mk t ps cs) + f = nsizeL cs + 1 + f + 1 := by
      rw [nsizeN]
      omega
    rw [hshape, hsize, parseNode_eq, if_pos (isOpenLine_openLine t)]
    simp only [parseProps_run ps (serC cs ++ closeLine :: rest) hok.1
      (headNotAt_serC cs closeLine rest isAtLine_closeLine)]
    simp only [hQ hok.2 f closeLine rest isOpenLine_closeLine]
    rfl
  · intro hok f l rest hl
    rw [serC, nsizeL]
    have harith : 0 + 1 + f = f + 1 := by omega
    rw [harith, List.nil_append]
    exact parseChildren_stop f l rest hl
  · intro c cs hP hQ hok f l rest hl
    rw [okL, Bool.and_eq_true] at hok
    have h2 := nsizeN_ge c
    obtain ⟨g, hg⟩ := Nat.exists_eq_add_of_le h2
    have hshape : serC (c :: cs) ++ l :: rest
        = serN c ++ (serC cs ++ l :: rest) := by
      rw [serC]
      simp
    have hsize : nsizeL (c :: cs) + 1 + f = nsizeN c + (nsizeL cs + f) + 1 := by
      rw [nsizeL]
      omega
    rw [hshape, hsize]
    obtain ⟨tc, pc, cc⟩ := c
    have hfold : serN (Node.mk tc pc cc) ++ (serC cs ++ l :: rest)
        = openLine tc :: (pc.map propLine ++ (serC cc ++ (closeLine :: (serC cs ++ l :: rest)))) := by
      rw [serN]
      simp
    rw [hfold, parseChildren_eq, if_pos (isOpenLine_openLine tc), ← hfold]
    simp only [hP hok.1 (nsizeL cs + f) (serC cs ++ l :: rest)]
    have harith3 : nsizeN (Node.mk tc pc cc) + (nsizeL cs + f)
        = nsizeL cs + 1 + (g + 1 + f) := by
      rw [hg]
      omega
    rw [harith3]
    simp only [hQ hok.2 (g + 1 + f) l rest hl]

theorem string_cons_ne_empty (c : Char) (cs : List Char) : String.mk (c :: cs) ≠ "" := by
  intro h
  have := congrArg String.data h
  simp at this

theorem serN_lines :
    (∀ n : Node, (∀ l ∈ serN n, l ≠ "") ∧ nsizeN n ≤ (serN n).length) ∧
    (∀ cs : List Node, (∀ l ∈ serC cs, l ≠ "") ∧ nsizeL cs ≤ (serC cs).length) := by
  apply node_ind
  · intro t ps cs hQ
    constructor
    · intro l hl
      simp only [serN, List.mem_cons, List.mem_append, List.mem_map,
        List.mem_singleton] at hl
      rcases hl with ((rfl | ⟨p, hp1, rfl⟩) | h) | (rfl | h2)
      · exact string_cons_ne_empty _ _
      · exact string_cons_ne_empty _ _
      · exact hQ.1 l h
      · decide
      · exact absurd h2 (List.not_mem_nil l)
    · rw [serN, nsizeN]
      have := hQ.2
      simp only [List.length_append, List.length_cons, List.length_map, List.length_singleton]
      omega
  · constructor
    · intro l hl
      rw [serC] at hl
      simp at hl
    · rw [serC, nsizeL]
      simp
  · intro c cs hP hQ
    rw [serC]
    constructor
    · intro l hl
      rw [List.mem_append] at hl
      rcases hl with h | h
      · exact hP.1 l h
      · exact hQ.1 l h
    · rw [nsizeL, List.length_append]
      have := hP.2
      have := hQ.2
      omega

theorem filter_serN (n : Node) : (serN n).filter (fun l => !(l == "")) = serN n := by
  rw [List.filter_eq_self]
  intro l hl
  have := (serN_lines.1 n).1 l hl
  simpa using this

theorem findStart_skip (l : String) (ls : List String)
    (h : containsStr metadataTagStart l = false) :
    findStart (l :: ls) = findStart ls := by
  simp [findStart, h]

theorem findStart_hit (l : String) (ls : List String)
    (h : containsStr metadataTagStart l = true) :
    findStart (l :: ls) = some ls := by
  simp [findStart, h]

theorem takeBody_run :
    ∀ body : List String, ∀ e : String, ∀ rest : List String,
      (∀ l ∈ body, containsStr metadataTagEnd l = false) →
      containsStr metadataTagEnd e = true →
      takeBody (body ++ e :: rest) = body := by
  intro body
  induction body with
  | nil =>
    intro e rest _ he
    simp [takeBody, he]
  | cons l body ih =>
    intro e rest hall he
    have hl : containsStr metadataTagEnd l = false := hall l (by simp)
    simp only [List.cons_append, takeBody, hl, List.append_eq]
    rw [ih e rest (fun x hx => hall x (by simp [hx])) he]
    simp

/-- The round-trip theorem for the persistence pipeline: a saved file's
metadata block reloads to exactly the tree that was saved, provided the
tree's property names are identifier-like and no serialized line contains
the end sentinel. -/
theorem reloadPure_saveLines (T : Node) (hTag : T.tag = componentDocumentTag)
    (hok : okN T = true) (hend : endFree T = true) :
    reloadPure (some (saveLines T)) = some T := by
  have hfs : findStart (saveLines T)
      = some (("" :: serN T) ++ (metadataTagEnd ++ " */") :: ["#endif"]) := by
    rw [saveLines, writeCodeLines, metadataLines]
    rw [show (["/**  */", ""] : List String)
          ++ (["#if 0", "/** Jucer-generated metadata section - Edit this data at own risk!",
               metadataTagStart, ""] ++ serN T ++ [metadataTagEnd ++ " */", "#endif"])
        = "/**  */" :: "" :: "#if 0"
          :: "/** Jucer-generated metadata section - Edit this data at own risk!"
          :: metadataTagStart :: (("" :: serN T) ++ (metadataTagEnd ++ " */") :: ["#endif"])
      from by simp]
    rw [findStart_skip _ _ (by decide), findStart_skip _ _ (by decide),
      findStart_skip _ _ (by decide), findStart_skip _ _ (by decide),
      findStart_hit _ _ (by decide)]
  have hext : extractMetadata (saveLines T) = "" :: serN T := by
    simp only [extractMetadata, hfs]
    apply takeBody_run
    · intro l hl
      simp only [List.mem_cons] at hl
      rcases hl with h | h
      · rw [h]
        decide
      · have := hend
        rw [endFree, List.all_eq_true] at this
        simpa using this l h
    · decide
  have hparse : parseDocumentXml ("" :: serN T) = some T := by
    rw [parseDocumentXml]
    have hclean : ("" :: serN T).filter (fun l => !(l == "")) = serN T := by
      rw [List.filter_cons]
      simp only [show ((!("" == "")) = false) from rfl, if_false]
      exact filter_serN T
    simp only [hclean]
    have hlen := (serN_lines.1 T).2
    have hfuel : (serN T).length + 1 = nsizeN T + ((serN T).length + 1 - nsizeN T) := by
      omega
    rw [hfuel]
    have := parse_ser.1 T hok ((serN T).length + 1 - nsizeN T) []
    rw [List.append_nil] at this
    rw [this]
  rw [reloadPure, hext, hparse]
  simp [hTag]

/-! ### Undo actions invert the writes that recorded them -/

theorem propGet_propSet_self (name v : String) (ps : List (String × String)) :
    propGet name (propSet name v ps) = some v := by
  induction ps with
  | nil => simp [propSet, propGet]
  | cons p ps ih =>
    by_cases h : p.1 == name
    · simp [propSet, propGet, h]
    · simp only [propSet, propGet, h, Bool.false_eq_true, if_false]
      exact ih

theorem propSet_propSet_cancel (name w v : String) (ps : List (String × String))
    (h : propGet name ps = some w) :
    propSet name w (propSet name v ps) = ps := by
  induction ps with
  | nil => simp [propGet] at h
  | cons p ps ih =>
    rw [propGet] at h
    by_cases hp : p.1 == name
    · rw [propSet, if_pos hp, propSet, if_pos (by simp)]
      rw [if_pos hp] at h
      have : w = p.2 := by
        injection h with h2
        exact h2.symm
      rw [this]
      have : name = p.1 := by
        have := hp
        simp only [beq_iff_eq] at this
        exact this.symm
      rw [this]
    · rw [propSet, if_neg (by simpa using hp), propSet, if_neg (by simpa using hp)]
      rw [if_neg (by simpa using hp)] at h
      rw [ih h]

theorem propRemove_propSet_cancel (name v : String) (ps : List (String × String))
    (h : propGet name ps = none) :
    propRemove name (propSet name v ps) = ps := by
  induction ps with
  | nil => simp [propSet, propRemove]
  | cons p ps ih =>
    rw [propGet] at h
    by_cases hp : p.1 == name
    · rw [if_pos hp] at h
      exact absurd h (by simp)
    · rw [if_neg (by simpa using hp)] at h
      rw [propSet, if_neg (by simpa using hp), propRemove, if_neg (by simpa using hp), ih h]

theorem setPropO_cancel (name v : String) (c : Node) :
    setPropO name (c.getProp name) (setPropO name (some v) c) = c := by
  obtain ⟨t, ps, cs⟩ := c
  rw [Node.getProp]
  cases hv : propGet name (Node.props (Node.mk t ps cs)) with
  | none =>
    rw [setPropO, setPropO]
    rw [Node.props] at hv
    simp only [Node.tag, Node.props, Node.children]
    rw [propRemove_propSet_cancel name v ps hv]
  | some w =>
    rw [setPropO, setPropO]
    rw [Node.props] at hv
    simp only [Node.tag, Node.props, Node.children]
    rw [propSet_propSet_cancel name w v ps hv]

theorem modifyAt_oob (i : Nat) (F : Node → Node) (cs : List Node)
    (h : cs[i]? = none) : modifyAt i F cs = cs := by
  induction cs generalizing i with
  | nil => cases i <;> rfl
  | cons c cs ih =>
    cases i with
    | zero => simp at h
    | succ j =>
      rw [modifyAt]
      simp only [List.getElem?_cons_succ] at h
      rw [ih j h]

theorem modifyAt_fix (i : Nat) (F : Node → Node) (cs : List Node) (c0 : Node)
    (h : cs[i]? = some c0) (hF : F c0 = c0) : modifyAt i F cs = cs := by
  induction cs generalizing i with
  | nil => simp at h
  | cons c cs ih =>
    cases i with
    | zero =>
      simp only [List.getElem?_cons_zero, Option.some.injEq] at h
      rw [modifyAt, h, hF]
    | succ j =>
      rw [modifyAt]
      simp only [List.getElem?_cons_succ] at h
      rw [ih j h]

theorem modifyAt_modifyAt (i : Nat) (F G : Node → Node) (cs : List Node) :
    modifyAt i G (modifyAt i F cs) = modifyAt i (fun c => G (F c)) cs := by
  induction cs generalizing i with
  | nil => cases i <;> rfl
  | cons c cs ih =>
    cases i with
    | zero => rfl
    | succ j =>
      rw [modifyAt, modifyAt, modifyAt, ih j]

theorem replaceGroupChildren_comp (F G : List Node → List Node) (cs : List Node) :
    replaceGroupChildren G (replaceGroupChildren F cs)
      = replaceGroupChildren (fun x => G (F x)) cs := by
  induction cs with
  | nil => rfl
  | cons c cs ih =>
    by_cases h : c.tag == componentGroupTag
    · rw [replaceGroupChildren, if_pos h, replaceGroupChildren,
        if_pos (by simpa [Node.tag] using h), replaceGroupChildren, if_pos h]
      simp [Node.tag, Node.props, Node.children]
    · rw [replaceGroupChildren, if_neg h, replaceGroupChildren, if_neg h,
        replaceGroupChildren, if_neg h, ih]

theorem getChildWithName_replaceGroup (F : List Node → List Node) (cs : List Node) :
    getChildWithName componentGroupTag (replaceGroupChildren F cs)
      = (getChildWithName componentGroupTag cs).map
          (fun g => Node.mk g.tag g.props (F g.children)) := by
  induction cs with
  | nil => rfl
  | cons c cs ih =>
    by_cases h : c.tag == componentGroupTag
    · rw [replaceGroupChildren, if_pos h, getChildWithName,
        if_pos (by simpa [Node.tag] using h), getChildWithName, if_pos h]
      rfl
    · rw [replaceGroupChildren, if_neg h, getChildWithName, if_neg h,
        getChildWithName, if_neg h, ih]

theorem replaceGroupChildren_none (F : List Node → List Node) (cs : List Node)
    (h : getChildWithName componentGroupTag cs = none) :
    replaceGroupChildren F cs = cs := by
  induction cs with
  | nil => rfl
  | cons c cs ih =>
    rw [getChildWithName] at h
    by_cases hc : c.tag == componentGroupTag
    · rw [if_pos hc] at h
      exact absurd h (by simp)
    · rw [if_neg hc] at h
      rw [replaceGroupChildren, if_neg hc, ih h]

theorem replaceGroupChildren_fix (F : List Node → List Node) (cs : List Node) (g : Node)
    (h : getChildWithName componentGroupTag cs = some g) (hF : F g.children = g.children) :
    replaceGroupChildren F cs = cs := by
  induction cs with
  | nil => simp [getChildWithName] at h
  | cons c cs ih =>
    rw [getChildWithName] at h
    by_cases hc : c.tag == componentGroupTag
    · rw [if_pos hc] at h
      rw [replaceGroupChildren, if_pos hc]
      have hg : g = c := by
        injection h with h2
        exact h2.symm
      rw [hg] at hF
      rw [hF, Node.eta]
    · rw [if_neg hc] at h
      rw [replaceGroupChildren, if_neg hc, ih h]

theorem mapGroupChildren_comp (r : Node) (F G : List Node → List Node) :
    mapGroupChildren (mapGroupChildren r F) G = mapGroupChildren r (fun x => G (F x)) := by
  obtain ⟨t, ps, cs⟩ := r
  rw [mapGroupChildren, mapGroupChildren, mapGroupChildren]
  simp only [Node.tag, Node.props, Node.children]
  rw [replaceGroupChildren_comp]

theorem mapGroupChildren_none (r : Node) (F : List Node → List Node)
    (h : getComponentGroup r = none) : mapGroupChildren r F = r := by
  obtain ⟨t, ps, cs⟩ := r
  rw [getComponentGroup] at h
  simp only [Node.children] at h
  rw [mapGroupChildren]
  simp only [Node.tag, Node.props, Node.children]
  rw [replaceGroupChildren_none _ _ h]

theorem mapGroupChildren_fix (r : Node) (F : List Node → List Node) (g : Node)
    (h : getComponentGroup r = some g) (hF : F g.children = g.children) :
    mapGroupChildren r F = r := by
  obtain ⟨t, ps, cs⟩ := r
  rw [getComponentGroup] at h
  simp only [Node.children] at h
  rw [mapGroupChildren]
  simp only [Node.tag, Node.props, Node.children]
  rw [replaceGroupChildren_fix _ _ g h hF]

theorem applyAction_record_cancel (r : Node) (i : Nat) (name v : String) :
    applyAction (applyAction r (recordSet r i name v)) (recordSet r i name v).invert = r := by
  rw [recordSet, Action.invert, applyAction, applyAction, mapGroupChildren_comp]
  cases hg : getComponentGroup r with
  | none => rw [mapGroupChildren_none _ _ hg]
  | some g =>
    apply mapGroupChildren_fix _ _ g hg
    show modifyAt i (setPropO name (getCompProp r i name))
        (modifyAt i (setPropO name (some v)) g.children) = g.children
    rw [modifyAt_modifyAt]
    cases hc : g.children[i]? with
    | none =>
      apply modifyAt_oob
      exact hc
    | some c0 =>
      apply modifyAt_fix _ _ _ c0 hc
      have h1 : getComponentAt r i = some c0 := by
        rw [getComponentAt, hg]
        exact hc
      have hv : getCompProp r i name = c0.getProp name := by
        rw [getCompProp, h1]
      show setPropO name (getCompProp r i name) (setPropO name (some v) c0) = c0
      rw [hv]
      exact setPropO_cancel name v c0

theorem applyInverses_cons (r : Node) (a : Action) (acts : List Action) :
    applyInverses r (a :: acts) = applyInverses (applyAction r a.invert) acts := rfl

theorem runWrites_inv :
    ∀ ws : List (Nat × String), ∀ r : Node, ∀ acts : List Action, ∀ base : Node,
      applyInverses r acts = base →
      applyInverses (ComponentDocument.runWrites (r, acts) ws).1
          (ComponentDocument.runWrites (r, acts) ws).2 = base ∧
      (ComponentDocument.runWrites (r, acts) ws).2.length = acts.length + ws.length := by
  intro ws
  induction ws with
  | nil =>
    intro r acts base h
    exact ⟨h, rfl⟩
  | cons w ws ih =>
    intro r acts base h
    obtain ⟨i, v⟩ := w
    rw [ComponentDocument.runWrites]
    have hstep : applyInverses (applyAction r (recordSet r i compBoundsProperty v))
        (recordSet r i compBoundsProperty v :: acts) = base := by
      rw [applyInverses_cons, applyAction_record_cancel]
      exact h
    have := ih (applyAction r (recordSet r i compBoundsProperty v))
      (recordSet r i compBoundsProperty v :: acts) base hstep
    refine ⟨this.1, ?_⟩
    rw [this.2]
    simp only [List.length_cons, List.length_cons]
    omega

/-! ### The drag gesture: one transaction, exact restoration -/

theorem applyInverses_nil (r : Node) : applyInverses r [] = r := rfl

/-- The captured entries of `beginDrag` on document `d`. -/
def entriesOf (d : ComponentDocument) (idxs : List Nat) : List (Nat × Rect) :=
  idxs.map (fun i =>
    (i, stringToComponentBounds ((getCompProp d.root i compBoundsProperty).getD "")))

theorem dragOnce_spec (d : ComponentDocument) (ds : DragState) (off : Point) :
    d.dragOnce ds off =
      { root := (ComponentDocument.runWrites
            (applyInverses d.root d.undoManager.current, [])
            (ds.entries.map (fun e => (e.1, componentBoundsToString (ds.zone e.2 off))))).1,
        undoManager := ⟨d.undoManager.history,
          (ComponentDocument.runWrites
            (applyInverses d.root d.undoManager.current, [])
            (ds.entries.map (fun e => (e.1, componentBoundsToString (ds.zone e.2 off))))).2⟩,
        changedSinceSaved :=
          if (ds.entries.map (fun e => (e.1, componentBoundsToString (ds.zone e.2 off)))).isEmpty
          then (if d.undoManager.current.isEmpty then d.changedSinceSaved else true) else true,
        dragger := d.dragger } := rfl

/-- The invariant carried across a drag gesture: history and captured state
untouched, and undoing the open transaction recovers the pre-drag root. -/
def DragInv (d0 d : ComponentDocument) (ds : DragState) : Prop :=
  d.undoManager.history = d0.undoManager.history ∧
  d.dragger = some ds ∧
  applyInverses d.root d.undoManager.current = d0.root

theorem dragOnce_inv (d0 d : ComponentDocument) (ds : DragState) (off : Point)
    (h : DragInv d0 d ds) :
    DragInv d0 (d.dragOnce ds off) ds ∧
    (d.dragOnce ds off).undoManager.current.length = ds.entries.length := by
  obtain ⟨h1, h2, h3⟩ := h
  have hrw := runWrites_inv
    (ds.entries.map (fun e => (e.1, componentBoundsToString (ds.zone e.2 off))))
    (applyInverses d.root d.undoManager.current) [] d0.root (by rw [applyInverses_nil, h3])
  rw [dragOnce_spec]
  refine ⟨⟨h1, h2, hrw.1⟩, ?_⟩
  rw [hrw.2]
  simp

theorem continueDrag_some (d : ComponentDocument) (ds : DragState) (off : Point)
    (h : d.dragger = some ds) : d.continueDrag off = d.dragOnce ds off := by
  rw [ComponentDocument.continueDrag, h]

theorem foldl_drag_inv (d0 : ComponentDocument) (ds : DragState) :
    ∀ offs : List Point, ∀ d : ComponentDocument, DragInv d0 d ds →
      DragInv d0 (offs.foldl ComponentDocument.continueDrag d) ds := by
  intro offs
  induction offs with
  | nil => intro d h; exact h
  | cons off offs ih =>
    intro d h
    rw [List.foldl_cons, continueDrag_some d ds off h.2.1]
    exact ih _ (dragOnce_inv d0 d ds off h).1

theorem beginDrag_inv (d : ComponentDocument) (idxs : List Nat)
    (zone : Rect → Point → Rect) (hcur : d.undoManager.current = []) :
    DragInv d (d.beginDrag idxs zone) ⟨entriesOf d idxs, zone⟩ := by
  have hemp : d.undoManager.current.isEmpty = true := by rw [hcur]; rfl
  have hbt : d.undoManager.beginNewTransaction = d.undoManager := by
    rw [UndoManager.beginNewTransaction, if_pos hemp]
  refine ⟨?_, rfl, ?_⟩
  · show d.undoManager.beginNewTransaction.history = d.undoManager.history
    rw [hbt]
  · show applyInverses d.root d.undoManager.beginNewTransaction.current = d.root
    rw [hbt, hcur, applyInverses_nil]

theorem endDrag_spec (d : ComponentDocument) (ds : DragState) (off : Point)
    (h : d.dragger = some ds)
    (hne : (d.dragOnce ds off).undoManager.current ≠ []) :
    d.endDrag off =
      { root := (d.dragOnce ds off).root,
        undoManager := ⟨(d.dragOnce ds off).undoManager.current
            :: (d.dragOnce ds off).undoManager.history, []⟩,
        changedSinceSaved := (d.dragOnce ds off).changedSinceSaved,
        dragger := none } := by
  have hemp : (d.dragOnce ds off).undoManager.current.isEmpty = false := by
    cases hc : (d.dragOnce ds off).undoManager.current with
    | nil => exact absurd hc hne
    | cons a as => rfl
  have hbt : (d.dragOnce ds off).undoManager.beginNewTransaction
      = ⟨(d.dragOnce ds off).undoManager.current
          :: (d.dragOnce ds off).undoManager.history, []⟩ := by
    rw [UndoManager.beginNewTransaction, if_neg (by rw [hemp]; exact Bool.false_ne_true)]
  rw [ComponentDocument.endDrag, h]
  show { d.dragOnce ds off with
          undoManager := (d.dragOnce ds off).undoManager.beginNewTransaction,
          dragger := none } = _
  rw [hbt]

theorem undo_spec (d : ComponentDocument) (t : List Action) (rest : List (List Action))
    (h : d.undoManager.history = t :: rest) :
    d.undo = { root := applyInverses d.root t,
               undoManager := ⟨rest, d.undoManager.current⟩,
               changedSinceSaved := true,
               dragger := d.dragger } := by
  rw [ComponentDocument.undo, h]

/-- The core of the drag-coalescing claim: a whole gesture pushes exactly one
transaction, and undoing it restores the pre-drag root exactly. -/
theorem drag_coalesce_core (d : ComponentDocument) (idxs : List Nat)
    (zone : Rect → Point → Rect) (offs : List Point) (offEnd : Point)
    (hcur : d.undoManager.current = []) (hne : idxs ≠ []) :
    ((offs.foldl ComponentDocument.continueDrag (d.beginDrag idxs zone)).endDrag
        offEnd).undoManager.history.length = d.undoManager.history.length + 1 ∧
    ((offs.foldl ComponentDocument.continueDrag (d.beginDrag idxs zone)).endDrag
        offEnd).undo.root = d.root := by
  have hinv0 := beginDrag_inv d idxs zone hcur
  have hinv1 := foldl_drag_inv d ⟨entriesOf d idxs, zone⟩ offs _ hinv0
  have hdo := dragOnce_inv d (offs.foldl ComponentDocument.continueDrag (d.beginDrag idxs zone))
    ⟨entriesOf d idxs, zone⟩ offEnd hinv1
  have hentne : entriesOf d idxs ≠ [] := by
    rw [entriesOf]
    intro hnil
    rw [List.map_eq_nil_iff] at hnil
    exact hne hnil
  have hcurne : ((offs.foldl ComponentDocument.continueDrag
      (d.beginDrag idxs zone)).dragOnce ⟨entriesOf d idxs, zone⟩ offEnd).undoManager.current
      ≠ [] := by
    intro hnil
    have hlen := hdo.2
    rw [hnil] at hlen
    cases hE : entriesOf d idxs with
    | nil => exact hentne hE
    | cons a as =>
      rw [hE] at hlen
      simp at hlen
  have hend := endDrag_spec (offs.foldl ComponentDocument.continueDrag (d.beginDrag idxs zone))
    ⟨entriesOf d idxs, zone⟩ offEnd hinv1.2.1 hcurne
  constructor
  · rw [hend]
    show (((offs.foldl ComponentDocument.continueDrag (d.beginDrag idxs zone)).dragOnce
        ⟨entriesOf d idxs, zone⟩ offEnd).undoManager.current
          :: ((offs.foldl ComponentDocument.continueDrag (d.beginDrag idxs zone)).dragOnce
        ⟨entriesOf d idxs, zone⟩ offEnd).undoManager.history).length
      = d.undoManager.history.length + 1
    rw [List.length_cons, hdo.1.1]
  · rw [hend]
    rw [undo_spec _ (((offs.foldl ComponentDocument.continueDrag
        (d.beginDrag idxs zone)).dragOnce ⟨entriesOf d idxs, zone⟩ offEnd).undoManager.current)
      (((offs.foldl ComponentDocument.continueDrag
        (d.beginDrag idxs zone)).dragOnce ⟨entriesOf d idxs, zone⟩ offEnd).undoManager.history)
      rfl]
    exact hdo.1.2.2

/-! ### The dirty-flag lifecycle -/

theorem save_flag (d : ComponentDocument) (w1 w2 : Bool) :
    (d.save w1 w2).2.changedSinceSaved
      = (if w1 && w2 then false else d.changedSinceSaved) := by
  rw [ComponentDocument.save]
  by_cases h : (w1 && w2) = true
  · rw [if_pos h]
    simp [h]
  · have h2 : (w1 && w2) = false := by
      cases hw : (w1 && w2)
      · rfl
      · exact absurd hw h
    simp [h2]

theorem reload_flag (d : ComponentDocument) (file : Option (List String)) :
    (d.reload file).2.changedSinceSaved
      = (if (reloadPure file).isSome then false else d.changedSinceSaved) := by
  rw [ComponentDocument.reload]
  cases h : reloadPure file with
  | none => simp
  | some t => simp

theorem stepEvent_flag (d : ComponentDocument) (e : DocEvent) :
    (d.stepEvent e).changedSinceSaved = dirtyStep d.changedSinceSaved e := by
  cases e with
  | propertyChanged => rfl
  | childrenChanged => rfl
  | parentChanged => rfl
  | saveEvent w1 w2 => exact save_flag d w1 w2
  | reloadEvent file => exact reload_flag d file

theorem foldl_stepEvent_flag :
    ∀ evs : List DocEvent, ∀ d : ComponentDocument,
      (evs.foldl ComponentDocument.stepEvent d).changedSinceSaved
        = evs.foldl dirtyStep d.changedSinceSaved := by
  intro evs
  induction evs with
  | nil => intro d; rfl
  | cons e evs ih =>
    intro d
    rw [List.foldl_cons, List.foldl_cons, ih, stepEvent_flag]

theorem construct_clean (file : Option (List String)) :
    (ComponentDocument.construct file).changedSinceSaved = false := by
  rw [ComponentDocument.construct]
  show ((⟨Node.mk componentDocumentTag [] [], ⟨[], []⟩, false, none⟩ :
      ComponentDocument).reload file).2.changedSinceSaved = false
  rw [reload_flag]
  cases h : (reloadPure file).isSome <;> simp

/-! ### The root invariant: a component group and a class name -/

/-- The repaired-root property: the component group child is present and the
class-name property is non-empty. -/
def goodRoot (n : Node) : Bool :=
  (getComponentGroup n).isSome && !(((n.getProp classNameProperty).getD "") == "")

theorem getChildWithName_append_self (cs : List Node) :
    (getChildWithName componentGroupTag
      (cs ++ [Node.mk componentGroupTag [] []])).isSome = true := by
  induction cs with
  | nil =>
    rw [List.nil_append, getChildWithName]
    rw [if_pos (by rw [Node.tag]; exact beq_self_eq_true componentGroupTag)]
    rfl
  | cons c cs ih =>
    rw [List.cons_append, getChildWithName]
    by_cases h : c.tag == componentGroupTag
    · rw [if_pos h]
      rfl
    · rw [if_neg h]
      exact ih

theorem getComponentGroup_mk (t : String) (ps : List (String × String)) (cs : List Node) :
    getComponentGroup (Node.mk t ps cs) = getChildWithName componentGroupTag cs := rfl

theorem getProp_mk (t : String) (ps : List (String × String)) (cs : List Node)
    (name : String) : (Node.mk t ps cs).getProp name = propGet name ps := rfl

theorem goodRoot_repair (r1 : Node) (hr : (getComponentGroup r1).isSome = true) :
    goodRoot (if (((r1.getProp classNameProperty).getD "") == "") then
        Node.mk r1.tag (propSet classNameProperty "NewComponent" r1.props) r1.children
      else r1) = true := by
  by_cases hc : (((r1.getProp classNameProperty).getD "") == "") = true
  · rw [if_pos hc, goodRoot]
    obtain ⟨t, ps, cs⟩ := r1
    rw [getComponentGroup_mk] at hr
    simp only [Node.tag, Node.props, Node.children]
    rw [getComponentGroup_mk, hr, getProp_mk, propGet_propSet_self]
    rfl
  · rw [if_neg hc, goodRoot, hr]
    simp only [Bool.true_and]
    simpa using hc

theorem checkRootObject_good (n : Node) :
    goodRoot (ComponentDocument.checkRootObject n) = true := by
  simp only [ComponentDocument.checkRootObject]
  apply goodRoot_repair
  by_cases hg : (getComponentGroup n).isSome = true
  · rw [if_pos hg]
    exact hg
  · rw [if_neg hg]
    obtain ⟨t, ps, cs⟩ := n
    simp only [Node.tag, Node.props, Node.children]
    rw [getComponentGroup_mk]
    exact getChildWithName_append_self cs

theorem goodRoot_mapGroupChildren (r : Node) (F : List Node → List Node) :
    goodRoot (mapGroupChildren r F) = goodRoot r := by
  obtain ⟨t, ps, cs⟩ := r
  rw [mapGroupChildren, goodRoot, goodRoot]
  simp only [Node.tag, Node.props, Node.children]
  rw [getComponentGroup_mk, getComponentGroup_mk, getChildWithName_replaceGroup]
  cases getChildWithName componentGroupTag cs <;> rfl

theorem goodRoot_applyAction (r : Node) (a : Action) :
    goodRoot (applyAction r a) = goodRoot r := by
  cases a with
  | setp i n o v => rw [applyAction, goodRoot_mapGroupChildren]
  | insertComp i c => rw [applyAction, goodRoot_mapGroupChildren]
  | removeComp i c => rw [applyAction, goodRoot_mapGroupChildren]

theorem goodRoot_applyInverses (r : Node) (acts : List Action) :
    goodRoot (applyInverses r acts) = goodRoot r := by
  induction acts generalizing r with
  | nil => rfl
  | cons a acts ih =>
    rw [applyInverses_cons, ih, goodRoot_applyAction]

theorem goodRoot_runWrites :
    ∀ ws : List (Nat × String), ∀ pr : Node × List Action,
      goodRoot (ComponentDocument.runWrites pr ws).1 = goodRoot pr.1 := by
  intro ws
  induction ws with
  | nil => intro pr; rfl
  | cons w ws ih =>
    intro pr
    obtain ⟨r, acts⟩ := pr
    obtain ⟨i, v⟩ := w
    rw [ComponentDocument.runWrites, ih]
    exact goodRoot_applyAction r (recordSet r i compBoundsProperty v)

theorem goodRoot_dragOnce (d : ComponentDocument) (ds : DragState) (off : Point) :
    goodRoot (d.dragOnce ds off).root = goodRoot d.root := by
  rw [dragOnce_spec]
  show goodRoot (ComponentDocument.runWrites
      (applyInverses d.root d.undoManager.current, []) _).1 = _
  rw [goodRoot_runWrites]
  exact goodRoot_applyInverses d.root d.undoManager.current

theorem goodRoot_applyOp (d : ComponentDocument) (op : DocOp)
    (h : goodRoot d.root = true) : goodRoot (d.applyOp op).root = true := by
  cases op with
  | saveOp w1 w2 =>
    show goodRoot (d.save w1 w2).2.root = true
    rw [ComponentDocument.save]
    by_cases hw : (w1 && w2) = true
    · simpa [hw] using h
    · have hw2 : (w1 && w2) = false := by
        cases hx : (w1 && w2)
        · rfl
        · exact absurd hx hw
      simpa [hw2] using h
  | reloadOp file =>
    show goodRoot (d.reload file).2.root = true
    rw [ComponentDocument.reload]
    cases hr : reloadPure file with
    | none => exact h
    | some t => exact checkRootObject_good t
  | newTransactionOp => exact h
  | undoOp =>
    show goodRoot d.undo.root = true
    rw [ComponentDocument.undo]
    cases hh : d.undoManager.history with
    | nil => exact h
    | cons tr rest =>
      show goodRoot (applyInverses d.root tr) = true
      rw [goodRoot_applyInverses]
      exact h
  | setPropertyOp i n v =>
    show goodRoot (d.performSet i n v).root = true
    rw [ComponentDocument.performSet]
    show goodRoot (applyAction d.root (recordSet d.root i n v)) = true
    rw [goodRoot_applyAction]
    exact h
  | addComponentOp hd uid pos =>
    have hr2 : (d.addNewComponent hd uid pos).root
        = applyAction d.root (Action.insertComp (getNumComponents d.root)
            (ComponentDocument.createNewItem hd uid
              (getNonExistentMemberName d.root hd.memberNameRoot) pos)) := rfl
    show goodRoot (d.addNewComponent hd uid pos).root = true
    rw [hr2, goodRoot_applyAction]
    exact h
  | beginDragOp idxs zone =>
    show goodRoot (d.beginDrag idxs zone).root = true
    exact h
  | continueDragOp off =>
    show goodRoot (d.continueDrag off).root = true
    rw [ComponentDocument.continueDrag]
    cases hd : d.dragger with
    | none => exact h
    | some ds =>
      show goodRoot (d.dragOnce ds off).root = true
      rw [goodRoot_dragOnce]
      exact h
  | endDragOp off =>
    show goodRoot (d.endDrag off).root = true
    rw [ComponentDocument.endDrag]
    cases hd : d.dragger with
    | none => exact h
    | some ds =>
      show goodRoot ((d.dragOnce ds off).beginNewTransaction).root = true
      show goodRoot (d.dragOnce ds off).root = true
      rw [goodRoot_dragOnce]
      exact h

theorem goodRoot_construct (file : Option (List String)) :
    goodRoot (ComponentDocument.construct file).root = true := by
  rw [ComponentDocument.construct]
  exact checkRootObject_good _

theorem goodRoot_foldl :
    ∀ ops : List DocOp, ∀ d : ComponentDocument, goodRoot d.root = true →
      goodRoot ((ops.foldl ComponentDocument.applyOp d).root) = true := by
  intro ops
  induction ops with
  | nil => intro d h; exact h
  | cons op ops ih =>
    intro d h
    rw [List.foldl_cons]
    exact ih _ (goodRoot_applyOp d op h)

/-! ### Termination and iteration bound of the member-name generator -/

theorem gnemCand_zero (orig : String) : gnemCand orig 0 = orig := rfl

theorem gnemCand_succ (orig : String) (i : Nat) :
    gnemCand orig (i + 1) = stripTrailingDigits orig ++ natStr (i + 1) := rfl

theorem gnemCand_inj (orig : String) (a b : Nat)
    (h : gnemCand orig (a + 1) = gnemCand orig (b + 1)) : a = b := by
  rw [gnemCand_succ, gnemCand_succ] at h
  have hd : (stripTrailingDigits orig).data ++ (natStr (a + 1)).data
      = (stripTrailingDigits orig).data ++ (natStr (b + 1)).data := congrArg String.data h
  have h2 := List.append_cancel_left hd
  have h3 : natStr (a + 1) = natStr (b + 1) := by
    have ha : natStr (a + 1) = String.mk (natStr (a + 1)).data := rfl
    have hb : natStr (b + 1) = String.mk (natStr (b + 1)).data := rfl
    rw [ha, hb, h2]
  have := natStr_inj (a + 1) (b + 1) h3
  omega

/-- The member names present in the component group. -/
def memberNames (root : Node) : List String :=
  match getComponentGroup root with
  | none => []
  | some g => g.children.filterMap (fun c => c.getProp memberNameProperty)

theorem memberNames_length (root : Node) :
    (memberNames root).length ≤ getNumComponents root := by
  rw [memberNames, getNumComponents]
  cases getComponentGroup root with
  | none => simp
  | some g => exact List.length_filterMap_le _ _

theorem findMemberRev_some (nm : String) :
    ∀ cs : List Node, (findMemberRev nm cs).isSome = true →
      ∃ c ∈ cs, c.getProp memberNameProperty = some nm := by
  intro cs
  induction cs with
  | nil => intro h; simp [findMemberRev] at h
  | cons c cs ih =>
    intro h
    rw [findMemberRev] at h
    cases hr : findMemberRev nm cs with
    | some r =>
      obtain ⟨c2, hc1, hc2⟩ := ih (by rw [hr]; rfl)
      exact ⟨c2, by simp [hc1], hc2⟩
    | none =>
      rw [hr] at h
      by_cases he : (c.getProp memberNameProperty == some nm) = true
      · refine ⟨c, by simp, ?_⟩
        simpa using he
      · rw [if_neg he] at h
        simp at h

theorem found_mem_memberNames (root : Node) (nm : String)
    (h : (getComponentWithMemberName root nm).isSome = true) :
    nm ∈ memberNames root := by
  rw [getComponentWithMemberName] at h
  rw [memberNames]
  cases hg : getComponentGroup root with
  | none => rw [hg] at h; simp at h
  | some g =>
    rw [hg] at h
    obtain ⟨c, hc1, hc2⟩ := findMemberRev_some nm g.children h
    exact List.mem_filterMap.2 ⟨c, hc1, hc2⟩

theorem exists_free_cand (root : Node) (orig : String) :
    ∃ j, j ≤ getNumComponents root + 1 ∧
      (getComponentWithMemberName root (gnemCand orig j)).isSome = false := by
  by_contra hcon
  push_neg at hcon
  have hmem : ∀ j, j ≤ getNumComponents root + 1 → gnemCand orig j ∈ memberNames root := by
    intro j hj
    apply found_mem_memberNames
    have hne := hcon j hj
    cases hx : (getComponentWithMemberName root (gnemCand orig j)).isSome
    · exact absurd hx hne
    · rfl
  have hnodup : ((List.range (getNumComponents root + 1)).map
      (fun k => gnemCand orig (k + 1))).Nodup := by
    apply List.Nodup.map
    · intro a b hab
      exact gnemCand_inj orig a b hab
    · exact List.nodup_range _
  have hsub : ((List.range (getNumComponents root + 1)).map
      (fun k => gnemCand orig (k + 1))) ⊆ memberNames root := by
    intro x hx
    rw [List.mem_map] at hx
    obtain ⟨k, hk, rfl⟩ := hx
    rw [List.mem_range] at hk
    exact hmem (k + 1) (by omega)
  have hlen := (hnodup.subperm hsub).length_le
  rw [List.length_map, List.length_range] at hlen
  have := memberNames_length root
  omega

theorem gnemLoop_sound (root : Node) (orig : String) :
    ∀ fuel i j : Nat, i ≤ j → j < i + fuel →
      (getComponentWithMemberName root (gnemCand orig j)).isSome = false →
      (getComponentWithMemberName root
        ((gnemLoop root orig fuel i (gnemCand orig i)).1)).isSome = false ∧
      (gnemLoop root orig fuel i (gnemCand orig i)).2 + i ≤ j := by
  intro fuel
  induction fuel with
  | zero => intro i j hij hlt; omega
  | succ f ih =>
    intro i j hij hlt hfree
    rw [gnemLoop]
    by_cases hm : (getComponentWithMemberName root (gnemCand orig i)).isSome = true
    · rw [if_pos hm]
      have hij2 : i + 1 ≤ j := by
        rcases Nat.lt_or_ge i j with h | h
        · omega
        · have hie : i = j := by omega
          rw [hie, hfree] at hm
          exact absurd hm (by simp)
      have hnext := ih (i + 1) j hij2 (by omega) hfree
      rw [gnemCand_succ] at hnext
      constructor
      · exact hnext.1
      · show (gnemLoop root orig f (i + 1)
            (stripTrailingDigits orig ++ natStr (i + 1))).2 + 1 + i ≤ j
        have := hnext.2
        omega
    · rw [if_neg hm]
      have hm2 : (getComponentWithMemberName root (gnemCand orig i)).isSome = false := by
        cases hx : (getComponentWithMemberName root (gnemCand orig i)).isSome
        · rfl
        · exact absurd hx hm
      exact ⟨hm2, by omega⟩

/-- `getNonExistentMemberName` terminates on a genuinely free name, and its
collision loop runs at most `getNumComponents + 1` times. -/
theorem gnem_terminates (root : Node) (suggested : String) :
    (getComponentWithMemberName root (getNonExistentMemberName root suggested)).isSome
        = false ∧
    gnemIterations root suggested ≤ getNumComponents root + 1 := by
  obtain ⟨j, hj, hfree⟩ := exists_free_cand root (makeValidCppIdentifier suggested)
  have hmain := gnemLoop_sound root (makeValidCppIdentifier suggested)
    (getNumComponents root + 2) 0 j (by omega) (by omega) hfree
  rw [gnemCand_zero] at hmain
  constructor
  · exact hmain.1
  · have := hmain.2
    show (gnemLoop root (makeValidCppIdentifier suggested)
      (getNumComponents root + 2) 0 (makeValidCppIdentifier suggested)).2
        ≤ getNumComponents root + 1
    omega

theorem gnem_no_collision (root : Node) (s : String)
    (h : getComponentWithMemberName root (makeValidCppIdentifier s) = none) :
    getNonExistentMemberName root s = makeValidCppIdentifier s := by
  show (gnemLoop root (makeValidCppIdentifier s)
    (getNumComponents root + 2) 0 (makeValidCppIdentifier s)).1 = makeValidCppIdentifier s
  have h2 : getNumComponents root + 2 = (getNumComponents root + 1) + 1 := rfl
  rw [h2, gnemLoop, if_neg (by rw [h]; simp)]

/-! ### Concrete documents and files used by the claims -/

/-- A representative document root with two buttons. -/
def demoRoot : Node :=
  .mk "COMPONENT" [("className", "DemoComponent")]
    [.mk "COMPONENTS" []
      [.mk "TEXTBUTTON" [("id", "a1"), ("name", ""), ("memberName", "button1"),
          ("position", "10 20 30 40")] [],
       .mk "TEXTBUTTON" [("id", "a2"), ("name", ""), ("memberName", "button2"),
          ("position", "5 6 7 8")] []]]

/-- A root in which a component's display name contains the end sentinel
string (a state any user can reach by typing that name). -/
def sentinelRoot : Node :=
  .mk "COMPONENT" [("className", "DemoComponent")]
    [.mk "COMPONENTS" []
      [.mk "TEXTBUTTON" [("id", "a1"), ("name", "JUCER_COMPONENT_METADATA_END"),
          ("memberName", "button1"), ("position", "1 2 3 4")] []]]

/-- A root whose component group holds a node with an unregistered type
tag. -/
def mysteryRoot : Node :=
  .mk "COMPONENT" [("className", "DemoComponent")]
    [.mk "COMPONENTS" [] [.mk "MYSTERY" [("id", "z1")] []]]

/-- A file whose metadata block parses to a bare COMPONENT element. -/
def noGroupFile : List String :=
  ["JUCER_COMPONENT_METADATA_START", "<COMPONENT", ">", "JUCER_COMPONENT_METADATA_END"]

/-- A file whose metadata block parses to a COMPONENT element with two
COMPONENTS children. -/
def twoGroupFile : List String :=
  ["JUCER_COMPONENT_METADATA_START", "<COMPONENT", "@className=x", "<COMPONENTS", ">",
   "<COMPONENTS", ">", ">", "JUCER_COMPONENT_METADATA_END"]

/-- How many children of the root carry the COMPONENTS tag. -/
def countGroups (n : Node) : Nat :=
  (n.children.filter (fun c => c.tag == componentGroupTag)).length

/-- A clean document over `demoRoot`. -/
def dW : ComponentDocument := ⟨demoRoot, ⟨[], []⟩, false, none⟩

/-- A dirty document over `demoRoot`. -/
def dDirty : ComponentDocument := ⟨demoRoot, ⟨[], []⟩, true, none⟩

/-- A translation zone for drag witnesses. -/
def zoneW : Rect → Point → Rect := fun r p => ⟨r.x + p.x, r.y + p.y, r.w, r.h⟩

theorem checkRootObject_id (n : Node) (h : goodRoot n = true) :
    ComponentDocument.checkRootObject n = n := by
  rw [goodRoot, Bool.and_eq_true] at h
  simp only [ComponentDocument.checkRootObject]
  rw [if_pos h.1, if_neg ?hc]
  case hc =>
    have h2 := h.2
    rw [Bool.not_eq_true'] at h2
    rw [h2]
    exact Bool.false_ne_true

/-! ### The claims -/

/-- C1 counterexample: the claim fails for a document root whose component
name property is the end sentinel string — `save()` writes that value on a
metadata line, `reload()`'s scan stops at it, the truncated block does not
parse, and reload returns false instead of reproducing the tree. -/
theorem c1_counterexample :
    sentinelRoot.tag = componentDocumentTag ∧
    reloadPure (some (saveLines sentinelRoot)) ≠ some sentinelRoot ∧
    ((ComponentDocument.construct none).reload (some (saveLines sentinelRoot))).1 = false := by
  refine ⟨rfl, ?_, rfl⟩
  intro h
  rw [show reloadPure (some (saveLines sentinelRoot)) = none from rfl] at h
  exact Option.noConfusion h

/-- C1 amended: saving and reloading reproduces the document root exactly for
every root tree whose property names contain no `'='` and whose serialized
lines do not contain the end sentinel; when the root additionally satisfies
the document invariant (component group present, non-empty class name — true
of every root a document holds), the reloaded document's root is identical
to it. -/
theorem c1_roundtrip (T : Node) (hTag : T.tag = componentDocumentTag)
    (hok : okN T = true) (hend : endFree T = true) :
    reloadPure (some (saveLines T)) = some T ∧
    (goodRoot T = true → ∀ d : ComponentDocument,
      (d.reload (some (saveLines T))).1 = true ∧
      (d.reload (some (saveLines T))).2.root = T) := by
  have hrt := reloadPure_saveLines T hTag hok hend
  refine ⟨hrt, ?_⟩
  intro hgood d
  rw [ComponentDocument.reload, hrt]
  exact ⟨rfl, checkRootObject_id T hgood⟩

theorem c1_roundtrip_witness :
    (demoRoot.tag = componentDocumentTag ∧ okN demoRoot = true ∧
      endFree demoRoot = true ∧ goodRoot demoRoot = true) ∧
    reloadPure (some (saveLines demoRoot)) = some demoRoot ∧
    (dW.reload (some (saveLines demoRoot))).2.root = demoRoot :=
  ⟨⟨rfl, by decide, by decide, by decide⟩,
   (c1_roundtrip demoRoot rfl (by decide) (by decide)).1,
   ((c1_roundtrip demoRoot rfl (by decide) (by decide)).2 (by decide) dW).2⟩

/-- C2 counterexample: reloading a file whose metadata parses to a bare
COMPONENT element returns true, but the resulting root is the repaired tree
(group added, class name defaulted), not the parsed tree itself. -/
theorem c2_counterexample :
    reloadPure (some noGroupFile) = some (Node.mk componentDocumentTag [] []) ∧
    ((ComponentDocument.construct none).reload (some noGroupFile)).1 = true ∧
    ((ComponentDocument.construct none).reload (some noGroupFile)).2.root
      ≠ Node.mk componentDocumentTag [] [] := by
  refine ⟨rfl, rfl, ?_⟩
  intro h
  have h2 : (1 : Nat) = 0 := congrArg countGroups h
  exact absurd h2 (by decide)

/-- C2 amended: reload returns true exactly when the backing file exists and
the text between the sentinels parses to a COMPONENT-tagged tree; on success
the state becomes the parsed tree repaired by checkRootObject, with the undo
history cleared and the dirty flag reset; on failure (absent file, absent
sentinel, malformed block, wrong tag) the document is left untouched and
false is returned — the embedding is a total function, so no failure
aborts. -/
theorem c2_reload_spec (d : ComponentDocument) (file : Option (List String)) :
    ((d.reload file).1 = (reloadPure file).isSome) ∧
    (∀ t, reloadPure file = some t →
      (d.reload file).2 = { root := ComponentDocument.checkRootObject t,
                            undoManager := ⟨[], []⟩,
                            changedSinceSaved := false,
                            dragger := d.dragger }) ∧
    (reloadPure file = none → (d.reload file).2 = d) := by
  refine ⟨?_, ?_, ?_⟩
  · rw [ComponentDocument.reload]
    cases reloadPure file <;> rfl
  · intro t ht
    rw [ComponentDocument.reload, ht]
  · intro h
    rw [ComponentDocument.reload, h]

theorem c2_reload_spec_witness :
    reloadPure (some noGroupFile) = some (Node.mk componentDocumentTag [] []) ∧
    (dW.reload (some noGroupFile)).2
      = { root := ComponentDocument.checkRootObject (Node.mk componentDocumentTag [] []),
          undoManager := ⟨[], []⟩, changedSinceSaved := false, dragger := dW.dragger } ∧
    reloadPure none = none ∧
    (dW.reload none).2 = dW :=
  ⟨rfl, (c2_reload_spec dW (some noGroupFile)).2.1 _ rfl,
   rfl, (c2_reload_spec dW none).2.2 rfl⟩

/-- C3 counterexample: with members {"button1","button2"} the generator
applied to "button" returns "button", not "button3" — no member is named
exactly "button", so the collision loop never runs. -/
theorem c3_counterexample :
    getNonExistentMemberName demoRoot "button" ≠ "button3" ∧
    getNonExistentMemberName demoRoot "button" = "button" := by
  exact ⟨by decide, by decide⟩

/-- C3 amended: with members {"button1","button2"} the base name "button"
comes back unchanged (suffixing happens only on an exact collision, as when
"button1" is requested and "button3" results); any suggestion whose
normalized form collides with no existing member name is returned normalized
and otherwise unchanged. -/
theorem c3_member_names :
    getNonExistentMemberName demoRoot "button" = "button" ∧
    getNonExistentMemberName demoRoot "button1" = "button3" ∧
    (∀ (root : Node) (s : String),
      getComponentWithMemberName root (makeValidCppIdentifier s) = none →
      getNonExistentMemberName root s = makeValidCppIdentifier s) := by
  refine ⟨by decide, by decide, ?_⟩
  intro root s h
  exact gnem_no_collision root s h

theorem c3_member_names_witness :
    getComponentWithMemberName demoRoot (makeValidCppIdentifier "newThing") = none ∧
    getNonExistentMemberName demoRoot "newThing" = makeValidCppIdentifier "newThing" :=
  ⟨rfl, c3_member_names.2.2 demoRoot "newThing" rfl⟩

/-- C4: a drag gesture — beginDrag, m continueDrag calls, one endDrag — adds
exactly one undoable transaction to the history (not m), and undoing it
restores every dragged component's bounds property to its exact pre-drag
value. -/
theorem c4_drag_coalesce (d : ComponentDocument) (idxs : List Nat)
    (zone : Rect → Point → Rect) (offs : List Point) (offEnd : Point)
    (hcur : d.undoManager.current = []) (hne : idxs ≠ []) :
    ((offs.foldl ComponentDocument.continueDrag (d.beginDrag idxs zone)).endDrag
        offEnd).undoManager.history.length = d.undoManager.history.length + 1 ∧
    ((offs.foldl ComponentDocument.continueDrag (d.beginDrag idxs zone)).endDrag
        offEnd).undo.root = d.root ∧
    (∀ i ∈ idxs, getCompProp (((offs.foldl ComponentDocument.continueDrag
        (d.beginDrag idxs zone)).endDrag offEnd).undo.root) i compBoundsProperty
      = getCompProp d.root i compBoundsProperty) := by
  have h := drag_coalesce_core d idxs zone offs offEnd hcur hne
  refine ⟨h.1, h.2, ?_⟩
  intro i _
  rw [h.2]

theorem c4_drag_coalesce_witness :
    (dW.undoManager.current = [] ∧ ([0] : List Nat) ≠ []) ∧
    ((([⟨1, 1⟩, ⟨2, 2⟩] : List Point).foldl ComponentDocument.continueDrag
        (dW.beginDrag [0] zoneW)).endDrag ⟨5, 5⟩).undoManager.history.length
      = dW.undoManager.history.length + 1 ∧
    ((([⟨1, 1⟩, ⟨2, 2⟩] : List Point).foldl ComponentDocument.continueDrag
        (dW.beginDrag [0] zoneW)).endDrag ⟨5, 5⟩).undo.root = dW.root :=
  ⟨⟨rfl, by decide⟩,
   (c4_drag_coalesce dW [0] zoneW [⟨1, 1⟩, ⟨2, 2⟩] ⟨5, 5⟩ rfl (by decide)).1,
   (c4_drag_coalesce dW [0] zoneW [⟨1, 1⟩, ⟨2, 2⟩] ⟨5, 5⟩ rfl (by decide)).2.1⟩

/-- C5, evaluated at the failing input: `createFromStoredType` duly returns
none for the unregistered tag "MYSTERY" and the node round-trips through
save and reload unharmed, but `ComponentDocument::createComponent (0)`
dereferences the null handler result
(`c->getProperties().set (idProperty, ...)` with `c == nullptr`), embedded
here as the `.crash` outcome — the claim's "must not crash" is violated by
the code. -/
theorem c5_unknown_type_crash :
    createFromStoredType (Node.mk "MYSTERY" [("id", "z1")] []) = none ∧
    reloadPure (some (saveLines mysteryRoot)) = some mysteryRoot ∧
    createComponent mysteryRoot 0 = CreateResult.crash :=
  ⟨rfl, rfl, by decide⟩

/-- C6: the dirty flag is false immediately after construction, then follows
the prescribed lifecycle over any event sequence — any property or
structural change event sets it, and it stays set until the next successful
save or reload clears it. -/
theorem c6_dirty_lifecycle (file : Option (List String)) (evs : List DocEvent) :
    (evs.foldl ComponentDocument.stepEvent
        (ComponentDocument.construct file)).changedSinceSaved
      = dirtySpec evs := by
  rw [foldl_stepEvent_flag, dirtySpec, construct_clean]

/-- C7: save clears the dirty flag exactly when both file writes succeed,
and on any write failure it returns false with the flag still set. -/
theorem c7_save_failure (d : ComponentDocument) (w1 w2 : Bool)
    (h : d.changedSinceSaved = true) :
    (d.save w1 w2).1 = (w1 && w2) ∧
    ((d.save w1 w2).2.changedSinceSaved = false ↔ (w1 && w2) = true) := by
  refine ⟨rfl, ?_⟩
  rw [save_flag]
  cases hw : (w1 && w2)
  · simp [h]
  · simp

theorem c7_save_failure_witness :
    dDirty.changedSinceSaved = true ∧
    (dDirty.save true false).1 = (true && false) ∧
    ((dDirty.save true false).2.changedSinceSaved = false ↔ (true && false) = true) :=
  ⟨rfl, (c7_save_failure dDirty true false rfl).1, (c7_save_failure dDirty true false rfl).2⟩

/-- C8 counterexample: a metadata block containing two COMPONENTS children
reloads successfully and both are retained — checkRootObject adds a group
only when none exists, so "exactly one" fails. -/
theorem c8_counterexample :
    ((ComponentDocument.construct none).reload (some twoGroupFile)).1 = true ∧
    countGroups (((ComponentDocument.construct none).reload (some twoGroupFile)).2.root) = 2 :=
  ⟨rfl, rfl⟩

/-- C8 amended: after construction, after every successful reload, and
through every subsequent document operation, the root holds at least one
COMPONENTS child (lazily added by checkRootObject when absent) and a
non-empty class-name property (defaulted when missing). -/
theorem c8_root_invariant (file : Option (List String)) (ops : List DocOp) :
    goodRoot ((ops.foldl ComponentDocument.applyOp
      (ComponentDocument.construct file)).root) = true :=
  goodRoot_foldl ops _ (goodRoot_construct file)

/-- C9: for every component group and suggestion the member-name generator
terminates on a name that collides with no member, and its collision loop
runs at most (component count + 1) iterations. -/
theorem c9_gnem_bound (root : Node) (suggested : String) :
    (getComponentWithMemberName root (getNonExistentMemberName root suggested)).isSome
        = false ∧
    gnemIterations root suggested ≤ getNumComponents root + 1 :=
  gnem_terminates root suggested

/-- C10: continueDrag and endDrag are complete no-ops when no drag is in
progress — tree, undo history, dirty flag and dragger are all unchanged. -/
theorem c10_drag_noop (d : ComponentDocument) (off : Point)
    (h : d.dragger = none) :
    d.continueDrag off = d ∧ d.endDrag off = d := by
  rw [ComponentDocument.continueDrag, ComponentDocument.endDrag, h]
  exact ⟨rfl, rfl⟩

theorem c10_drag_noop_witness :
    dW.dragger = none ∧ dW.continueDrag ⟨3, 4⟩ = dW ∧ dW.endDrag ⟨3, 4⟩ = dW :=
  ⟨rfl, (c10_drag_noop dW ⟨3, 4⟩ rfl).1, (c10_drag_noop dW ⟨3, 4⟩ rfl).2⟩

end Jucer
